import Mathlib

/-!
Verification of the student-question HTML extraction pipeline
(`parse_questions.py`).

The Python source is shallowly embedded below:

* Python string primitives (`str.strip()`, `str.split()`, `' '.join`)
  are modelled over `List Char`; Python treats the Unicode whitespace
  characters listed in `pyWhitespaceChars` as whitespace both for
  `strip`/`split` and for the regex class `\s`.
* The regular expression `Questions\s+\d+/\d+:\s*(.+)` applied with
  `re.search` is modelled by `searchQuestions`, including the
  backtracking behaviour of the final `\s*(.+)` and the fact that `.`
  does not match a newline.
* An HTML document as seen by the parser is abstracted to the data the
  code actually consumes from BeautifulSoup: the text of the first
  `title` element, the text of the first `h1` element, and the list of
  paragraph texts inside the first `div` element (`HtmlDoc`).  A
  read/parse fault (the `except` branch) is modelled by `none`.
* `parse_html_file`, `process_directory` and `format_output` follow the
  corresponding Python functions.  Python's `sorted` on strings is a
  stable sort with respect to a linear order; since equal strings are
  indistinguishable, any correct sort computes the same list, and we
  use `List.insertionSort`.

Specification-side definitions (used only to state refinement theorems)
are named with a `spec_` prefix and follow the wording of the design
document rather than the code.
-/

set_option autoImplicit false

namespace ParseQuestions

/-! ### Python string primitives -/

/-- The characters Python's `str.strip()` (no arguments) removes and that
`str.split()` (no arguments) and the regex class `\s` treat as
whitespace: Unicode whitespace, notably including the non-breaking
space `'\xa0'`. -/
def pyWhitespaceChars : List Char :=
  [' ', '\t', '\n', '\r', '\x0b', '\x0c',
   '\x1c', '\x1d', '\x1e', '\x1f', '\x85', '\xa0',
   ' ', ' ', ' ', ' ', ' ', ' ', ' ',
   ' ', ' ', ' ', ' ', ' ',
   ' ', ' ', ' ', ' ', '　']

/-- Whether a character counts as whitespace for Python. -/
def pyIsSpace (c : Char) : Bool := pyWhitespaceChars.elem c

/-- Remove leading Python whitespace (the left half of `str.strip()`). -/
def stripLeft (l : List Char) : List Char := l.dropWhile pyIsSpace

/-- Remove trailing Python whitespace (the right half of `str.strip()`). -/
def stripRight (l : List Char) : List Char :=
  (l.reverse.dropWhile pyIsSpace).reverse

/-- Python `str.strip()` on a list of characters. -/
def pyStripList (l : List Char) : List Char := stripRight (stripLeft l)

/-- Python `str.strip()` with no arguments. -/
def pyStrip (s : String) : String := String.mk (pyStripList s.toList)

/-- Accumulator-style model of Python `str.split()` with no arguments:
split on runs of whitespace, never producing empty words.  `acc` holds
the characters of the word currently being read, in reverse. -/
def splitAux : List Char → List Char → List (List Char)
  | [], acc => if acc.isEmpty then [] else [acc.reverse]
  | c :: cs, acc =>
    if pyIsSpace c then
      if acc.isEmpty then splitAux cs [] else acc.reverse :: splitAux cs []
    else
      splitAux cs (c :: acc)

/-- Python `' '.join(words)` on character lists. -/
def joinWords : List (List Char) → List Char
  | [] => []
  | [w] => w
  | w :: v :: rest => w ++ ' ' :: joinWords (v :: rest)

/-- The question clean-up in `format_output`:
Python `' '.join(question.split())`. -/
def normalizeWs (s : String) : String :=
  String.mk (joinWords (splitAux s.toList []))

/-! ### The name regex

`re.search(r'Questions\s+\d+/\d+:\s*(.+)', text)`, returning the first
captured group.  `re.search` scans for the leftmost match.  Within the
pattern, `\s+`/`\d+` followed by a token of a disjoint character class
need no backtracking, so maximal munch is exact; the final `\s*(.+)`
does backtrack: `\s*` is greedy, and if nothing is left for `.+` (which
cannot match a newline and needs at least one character) the engine
gives whitespace back one character at a time. -/

/-- Digits for the regex class `\d` (ASCII digits; the documents use
only those). -/
def pyIsDigit (c : Char) : Bool := '0' ≤ c && c ≤ '9'

/-- Match a literal string at the head of the input, returning the rest. -/
def matchLit : List Char → List Char → Option (List Char)
  | [], l => some l
  | _ :: _, [] => none
  | p :: ps, c :: cs => if c = p then matchLit ps cs else none

/-- Match one-or-more characters of class `p` (greedy, like `\s+` or
`\d+` when followed by a disjoint token), returning the rest. -/
def takeSome (p : Char → Bool) : List Char → Option (List Char)
  | [] => none
  | c :: cs => if p c then some (cs.dropWhile p) else none

/-- Match `\s*(.+)` against `r` and return the captured group.
Greedy `\s*` first; if it consumes everything, backtrack to the last
character that `.` can match (any character but a newline). -/
def captureRest (r : List Char) : Option (List Char) :=
  match r.dropWhile pyIsSpace with
  | _ :: _ => some ((r.dropWhile pyIsSpace).takeWhile (fun c => c ≠ '\n'))
  | [] =>
    match r.reverse.dropWhile (fun c => c = '\n') with
    | c :: _ => some [c]
    | [] => none

/-- Try the whole pattern anchored at the current position. -/
def matchQuestionsAt (l : List Char) : Option (List Char) := do
  let r1 ← matchLit "Questions".toList l
  let r2 ← takeSome pyIsSpace r1
  let r3 ← takeSome pyIsDigit r2
  let r4 ← matchLit ['/'] r3
  let r5 ← takeSome pyIsDigit r4
  let r6 ← matchLit [':'] r5
  captureRest r6

/-- `re.search`: try the pattern at every position, leftmost match wins;
return the captured group. -/
def searchQuestions : List Char → Option (List Char)
  | [] => none
  | c :: cs =>
    match matchQuestionsAt (c :: cs) with
    | some cap => some cap
    | none => searchQuestions cs

/-- `match.group(1).strip()` of the name pattern searched in `s`, if the
pattern matches. -/
def findNameLabel (s : String) : Option (List Char) :=
  searchQuestions s.toList

/-- The name a single source (title text or h1 text) yields: the text is
stripped, searched, and the captured group stripped — `none` when the
element is absent or the pattern does not match. -/
def nameFrom (src : Option String) : Option String :=
  match src with
  | none => none
  | some txt =>
    match findNameLabel (pyStrip txt) with
    | some cap => some (String.mk (pyStripList cap))
    | none => none

/-- Lines 29–47 of the source: start from the sentinel, try the title,
and re-try on the first `h1` whenever the current name still equals the
sentinel string. -/
def extract_student_name (title h1 : Option String) : String :=
  let n1 : String :=
    match nameFrom title with
    | some lab => lab
    | none => "Unknown Student"
  if n1 = "Unknown Student" then
    match nameFrom h1 with
    | some lab => lab
    | none => "Unknown Student"
  else n1

/-! ### The document parser -/

/-- What `parse_html_file` reads off the BeautifulSoup tree: the text of
the first `title` tag, of the first `h1` tag, and the texts of the `p`
tags inside the first `div` tag (each as `get_text()` returns it). -/
structure HtmlDoc where
  title : Option String
  h1 : Option String
  firstDiv : Option (List String)
deriving DecidableEq

/-- The dictionary `parse_html_file` returns. -/
structure ParsedDocument where
  student_name : String
  questions : List String
  file_path : String
deriving DecidableEq

/-- Lines 57–77 of the source: the question-segmentation loop over the
paragraph texts, carrying `current_question`. -/
def questionsLoop : List String → String → List String
  | [], acc => if pyStrip acc ≠ "" then [pyStrip acc] else []
  | p :: ps, acc =>
    let text := pyStrip p
    if text = "" ∨ text = "\xa0" then
      if pyStrip acc ≠ "" then pyStrip acc :: questionsLoop ps ""
      else questionsLoop ps acc
    else
      if acc ≠ "" then questionsLoop ps (acc ++ " " ++ text)
      else questionsLoop ps text

/-- Lines 50–77: no `div` means no questions; otherwise run the loop on
the paragraphs of the first `div`. -/
def questionsOf (doc : HtmlDoc) : List String :=
  match doc.firstDiv with
  | none => []
  | some ps => questionsLoop ps ""

/-- `parse_html_file`: `input = none` models the `except` branch (a read
or parse fault), which returns the sentinel record. -/
def parse_html_file (file_path : String) (input : Option HtmlDoc) :
    ParsedDocument :=
  match input with
  | none =>
    { student_name := "Error parsing file", questions := [], file_path }
  | some doc =>
    { student_name := extract_student_name doc.title doc.h1
      questions := questionsOf doc
      file_path }

/-! ### The batch runner -/

/-- `process_directory`: the glob result `files` and the filesystem are
external collaborators; `fetch` yields a document's parsed content or
`none` on a read/parse fault.  The code sorts the file list and parses
each file in order. -/
def process_directory (files : List String)
    (fetch : String → Option HtmlDoc) : List ParsedDocument :=
  if files.isEmpty then []
  else (files.insertionSort (· ≤ ·)).map fun p => parse_html_file p (fetch p)

/-! ### The report formatter -/

/-- Python `enumerate(xs, i)`. -/
def enumerate1 {α : Type} : Nat → List α → List (Nat × α)
  | _, [] => []
  | i, x :: xs => (i, x) :: enumerate1 (i + 1) xs

/-- The lines `format_output` appends for one result record. -/
def docBlock (result : ParsedDocument) : List String :=
  ("- " ++ result.student_name)
    :: (enumerate1 1 result.questions).map
        (fun iq => "    - Question " ++ toString iq.1 ++ ": " ++ normalizeWs iq.2)
    ++ [""]

/-- Lines 121–143 of the source: all blocks concatenated and joined with
newlines. -/
def format_output (results : List ParsedDocument) : String :=
  String.intercalate "\n" (results.flatMap docBlock)

/-! ### Specification-side definitions

These follow the wording of the design document, not the code; the
refinement theorems below compare them with the code-side definitions. -/

/-- Spec wording: collapse every whitespace run to a single space.  The
flag records whether the previous character belonged to a run already
collapsed. -/
def collapseGo : Bool → List Char → List Char
  | _, [] => []
  | inRun, c :: cs =>
    if pyIsSpace c then
      if inRun then collapseGo true cs else ' ' :: collapseGo true cs
    else c :: collapseGo false cs

/-- Spec wording for question normalization: collapse all internal
whitespace runs (including newlines) to single spaces and trim leading
and trailing whitespace. -/
def spec_normalize (s : String) : String :=
  String.mk (pyStripList (collapseGo false s.toList))

/-- Spec wording, one step of the delimiter–accumulator algorithm: a
paragraph whose trimmed text is empty or a lone non-breaking space is a
delimiter; it pushes the accumulator (trimmed) when that is non-empty
and resets it, and otherwise does nothing.  A non-delimiter paragraph
is appended to the accumulator with a single space separator, or starts
it. -/
def spec_segment_step (st : List String × String) (p : String) :
    List String × String :=
  let t := pyStrip p
  if t = "" ∨ t = "\xa0" then
    if pyStrip st.2 ≠ "" then (st.1 ++ [pyStrip st.2], "") else st
  else
    if st.2 = "" then (st.1, t) else (st.1, st.2 ++ " " ++ t)

/-- Spec wording: after all paragraphs are consumed, a non-empty
accumulator (trimmed) is pushed as a final question. -/
def spec_finish (st : List String × String) : List String :=
  if pyStrip st.2 ≠ "" then st.1 ++ [pyStrip st.2] else st.1

/-- Spec wording: the question sequence produced by running the
delimiter–accumulator algorithm over the paragraph texts. -/
def spec_segment (ps : List String) : List String :=
  spec_finish (ps.foldl spec_segment_step ([], ""))

/-- Spec wording: for each question at 1-based position `i`, the line
consisting of four spaces, a dash, `Question i: ` and the normalized
question. -/
def spec_question_lines : Nat → List String → List String
  | _, [] => []
  | i, q :: qs =>
    ("    - Question " ++ toString i ++ ": " ++ spec_normalize q)
      :: spec_question_lines (i + 1) qs

/-- Spec wording: a document's block is the line `- name`, the question
lines, and a blank line. -/
def spec_doc_block (d : ParsedDocument) : List String :=
  ("- " ++ d.student_name) :: spec_question_lines 1 d.questions ++ [""]

/-- Spec wording: the report is the newline-joined concatenation of the
blocks of all documents, in order. -/
def format_spec (results : List ParsedDocument) : String :=
  String.intercalate "\n" (results.flatMap spec_doc_block)

/-- A concrete fetch environment (used to instantiate batch theorems):
reading `a.html` faults, every other file parses to a one-paragraph
document. -/
def wfetch : String → Option HtmlDoc :=
  fun q => if q = "a.html" then none else some ⟨none, none, some ["hi"]⟩

/-! ### Whitespace and strip lemmas -/

theorem space_isSpace : pyIsSpace ' ' = true := by decide

theorem newline_isSpace : pyIsSpace '\n' = true := by decide

theorem ne_newline_of_not_space {c : Char} (h : pyIsSpace c = false) :
    c ≠ '\n' := by
  intro hc
  rw [hc, newline_isSpace] at h
  cases h

theorem dropWhile_head_false {α : Type} (p : α → Bool) :
    ∀ (l : List α) (c : α) (cs : List α),
      l.dropWhile p = c :: cs → p c = false := by
  intro l
  induction l with
  | nil => intro c cs h; cases h
  | cons a l ih =>
    intro c cs h
    by_cases hp : p a
    · rw [List.dropWhile_cons, if_pos hp] at h
      exact ih c cs h
    · rw [List.dropWhile_cons, if_neg hp] at h
      cases h
      simpa using hp

theorem dropWhile_append_of_eq_nil {α : Type} {p : α → Bool} {A : List α}
    (h : A.dropWhile p = []) (B : List α) :
    (A ++ B).dropWhile p = B.dropWhile p := by
  rw [List.dropWhile_append, h]
  simp

theorem dropWhile_append_of_ne_nil {α : Type} {p : α → Bool} {A : List α}
    (h : A.dropWhile p ≠ []) (B : List α) :
    (A ++ B).dropWhile p = A.dropWhile p ++ B := by
  rw [List.dropWhile_append, if_neg (by simpa [List.isEmpty_iff] using h)]

theorem stripLeft_cons_of_space {c : Char} (x : List Char)
    (h : pyIsSpace c = true) : stripLeft (c :: x) = stripLeft x := by
  simp [stripLeft, List.dropWhile_cons, h]

theorem stripLeft_cons_of_not_space {c : Char} (x : List Char)
    (h : pyIsSpace c = false) : stripLeft (c :: x) = c :: x := by
  simp [stripLeft, List.dropWhile_cons, h]

theorem stripRight_nil : stripRight [] = [] := rfl

theorem stripRight_eq_nil_iff {l : List Char} :
    stripRight l = [] ↔ l.reverse.dropWhile pyIsSpace = [] := by
  unfold stripRight
  exact List.reverse_eq_nil_iff

theorem stripRight_cons (c : Char) (x : List Char) :
    stripRight (c :: x) =
      if stripRight x = [] then (if pyIsSpace c then [] else [c])
      else c :: stripRight x := by
  by_cases h : stripRight x = []
  · have h2 : x.reverse.dropWhile pyIsSpace = [] := stripRight_eq_nil_iff.mp h
    rw [if_pos h]
    unfold stripRight
    rw [List.reverse_cons, dropWhile_append_of_eq_nil h2]
    by_cases hc : pyIsSpace c
    · simp [List.dropWhile_cons, hc]
    · simp [List.dropWhile_cons, hc]
  · have h2 : x.reverse.dropWhile pyIsSpace ≠ [] :=
      fun hh => h (stripRight_eq_nil_iff.mpr hh)
    rw [if_neg h]
    unfold stripRight
    rw [List.reverse_cons, dropWhile_append_of_ne_nil h2]
    simp

theorem stripRight_cons_of_not_space {c : Char} (x : List Char)
    (h : pyIsSpace c = false) : stripRight (c :: x) = c :: stripRight x := by
  rw [stripRight_cons]
  by_cases h2 : stripRight x = [] <;> simp [h2, h]

theorem stripRight_cons_ne_nil {c : Char} (x : List Char)
    (h : pyIsSpace c = false) : stripRight (c :: x) ≠ [] := by
  rw [stripRight_cons_of_not_space x h]
  simp

theorem stripRight_idem (x : List Char) :
    stripRight (stripRight x) = stripRight x := by
  unfold stripRight
  rw [List.reverse_reverse, List.dropWhile_idempotent]

theorem stripRight_pyStripList (l : List Char) :
    stripRight (pyStripList l) = pyStripList l := by
  unfold pyStripList
  exact stripRight_idem _

/-! ### Equivalence of the two normalizations

`' '.join(s.split())` (the code) computes the same string as
"collapse each whitespace run to one space, then trim" (the spec). -/

theorem joinWords_cons (w : List Char) (W : List (List Char)) :
    joinWords (w :: W) = w ++ (if W = [] then [] else ' ' :: joinWords W) := by
  cases W with
  | nil => simp [joinWords]
  | cons v rest => simp [joinWords]

theorem splitAux_ne_nil :
    ∀ (l : List Char) (acc : List Char), acc ≠ [] → splitAux l acc ≠ [] := by
  intro l
  induction l with
  | nil =>
    intro acc h
    have : acc.isEmpty = false := by simpa [List.isEmpty_iff] using h
    simp [splitAux, this]
  | cons c cs ih =>
    intro acc h
    have hE : acc.isEmpty = false := by simpa [List.isEmpty_iff] using h
    by_cases hc : pyIsSpace c
    · simp [splitAux, hc, hE]
    · simpa [splitAux, hc] using ih (c :: acc) (by simp)

theorem collapseGo_true_space {c : Char} (cs : List Char)
    (h : pyIsSpace c = true) : collapseGo true (c :: cs) = collapseGo true cs := by
  simp [collapseGo, h]

theorem collapseGo_false_space {c : Char} (cs : List Char)
    (h : pyIsSpace c = true) :
    collapseGo false (c :: cs) = ' ' :: collapseGo true cs := by
  simp [collapseGo, h]

theorem collapseGo_not_space (b : Bool) {c : Char} (cs : List Char)
    (h : pyIsSpace c = false) :
    collapseGo b (c :: cs) = c :: collapseGo false cs := by
  cases b <;> simp [collapseGo, h]

theorem collapseGo_true_head :
    ∀ (l : List Char) (d : Char) (ds : List Char),
      collapseGo true l = d :: ds → pyIsSpace d = false := by
  intro l
  induction l with
  | nil => intro d ds h; cases h
  | cons c cs ih =>
    intro d ds h
    by_cases hc : pyIsSpace c
    · rw [collapseGo_true_space cs hc] at h
      exact ih d ds h
    · rw [collapseGo_not_space true cs (by simpa using hc)] at h
      cases h
      simpa using hc

theorem stripLeft_collapseGo_true :
    ∀ l : List Char, stripLeft (collapseGo true l) = collapseGo true l := by
  intro l
  induction l with
  | nil => rfl
  | cons c cs ih =>
    by_cases hc : pyIsSpace c
    · rw [collapseGo_true_space cs hc]; exact ih
    · rw [collapseGo_not_space true cs (by simpa using hc)]
      exact stripLeft_cons_of_not_space _ (by simpa using hc)

theorem stripLeft_collapseGo_false :
    ∀ l : List Char, stripLeft (collapseGo false l) = collapseGo true l := by
  intro l
  induction l with
  | nil => rfl
  | cons c cs ih =>
    by_cases hc : pyIsSpace c
    · rw [collapseGo_false_space cs hc, stripLeft_cons_of_space _ space_isSpace,
        collapseGo_true_space cs hc]
      exact stripLeft_collapseGo_true cs
    · rw [collapseGo_not_space false cs (by simpa using hc),
        collapseGo_not_space true cs (by simpa using hc)]
      exact stripLeft_cons_of_not_space _ (by simpa using hc)

theorem splitAux_nil_iff_collapse_nil :
    ∀ l : List Char, splitAux l [] = [] ↔ collapseGo true l = [] := by
  intro l
  induction l with
  | nil => simp [splitAux, collapseGo]
  | cons c cs ih =>
    by_cases hc : pyIsSpace c
    · rw [collapseGo_true_space cs hc]
      simpa [splitAux, hc] using ih
    · rw [collapseGo_not_space true cs (by simpa using hc)]
      constructor
      · intro h
        exact absurd h (by simpa [splitAux, hc] using splitAux_ne_nil cs [c] (by simp))
      · intro h; cases h

theorem stripRight_collapse_true_ne_nil {l : List Char}
    (h : collapseGo true l ≠ []) : stripRight (collapseGo true l) ≠ [] := by
  cases hcl : collapseGo true l with
  | nil => exact absurd hcl h
  | cons d ds =>
    exact stripRight_cons_ne_nil ds (collapseGo_true_head l d ds hcl)

theorem splitAux_joinWords :
    ∀ l : List Char,
      (joinWords (splitAux l []) = stripRight (stripLeft (collapseGo false l))) ∧
      (∀ acc : List Char, acc ≠ [] →
        joinWords (splitAux l acc) = acc.reverse ++ stripRight (collapseGo false l)) := by
  intro l
  induction l with
  | nil =>
    constructor
    · rfl
    · intro acc h
      have hE : acc.isEmpty = false := by simpa [List.isEmpty_iff] using h
      simp [splitAux, hE, joinWords, collapseGo, stripRight]
  | cons c cs ih =>
    obtain ⟨ih1, ih2⟩ := ih
    constructor
    · by_cases hc : pyIsSpace c
      · have hL : splitAux (c :: cs) [] = splitAux cs [] := by
          simp [splitAux, hc]
        rw [hL, ih1, collapseGo_false_space cs hc,
          stripLeft_cons_of_space _ space_isSpace,
          stripLeft_collapseGo_false cs, stripLeft_collapseGo_true cs]
      · have hL : splitAux (c :: cs) [] = splitAux cs [c] := by
          simp [splitAux, hc]
        rw [hL, ih2 [c] (by simp), collapseGo_not_space false cs (by simpa using hc),
          stripLeft_cons_of_not_space _ (by simpa using hc),
          stripRight_cons_of_not_space _ (by simpa using hc)]
        simp
    · intro acc hacc
      have hE : acc.isEmpty = false := by simpa [List.isEmpty_iff] using hacc
      by_cases hc : pyIsSpace c
      · have hL : splitAux (c :: cs) acc = acc.reverse :: splitAux cs [] := by
          simp [splitAux, hc, hE]
        rw [hL, joinWords_cons, collapseGo_false_space cs hc, stripRight_cons]
        rw [if_pos space_isSpace]
        by_cases hW : splitAux cs [] = []
        · have hcoll : collapseGo true cs = [] :=
            (splitAux_nil_iff_collapse_nil cs).mp hW
          rw [if_pos hW, hcoll, stripRight_nil, if_pos rfl]
        · have hcoll : collapseGo true cs ≠ [] :=
            fun hh => hW ((splitAux_nil_iff_collapse_nil cs).mpr hh)
          rw [if_neg hW, if_neg (stripRight_collapse_true_ne_nil hcoll), ih1,
            stripLeft_collapseGo_false cs]
      · have hL : splitAux (c :: cs) acc = splitAux cs (c :: acc) := by
          simp [splitAux, hc]
        rw [hL, ih2 (c :: acc) (by simp), collapseGo_not_space false cs (by simpa using hc),
          stripRight_cons_of_not_space _ (by simpa using hc), List.reverse_cons]
        simp

theorem normalize_eq_spec (s : String) : normalizeWs s = spec_normalize s := by
  unfold normalizeWs spec_normalize pyStripList
  exact congrArg String.mk (splitAux_joinWords s.toList).1

/-! ### Segmentation lemmas -/

theorem finish_foldl :
    ∀ (ps : List String) (qs : List String) (acc : String),
      spec_finish (ps.foldl spec_segment_step (qs, acc)) = qs ++ questionsLoop ps acc := by
  intro ps
  induction ps with
  | nil =>
    intro qs acc
    by_cases h : pyStrip acc = ""
    · simp [spec_finish, questionsLoop, h]
    · simp [spec_finish, questionsLoop, h]
  | cons p ps ih =>
    intro qs acc
    rw [List.foldl_cons]
    by_cases hd : pyStrip p = "" ∨ pyStrip p = "\xa0"
    · by_cases hacc : pyStrip acc = ""
      · have hstep : spec_segment_step (qs, acc) p = (qs, acc) := by
          simp [spec_segment_step, hd, hacc]
        have hloop : questionsLoop (p :: ps) acc = questionsLoop ps acc := by
          simp [questionsLoop, hd, hacc]
        rw [hstep, hloop, ih]
      · have hstep : spec_segment_step (qs, acc) p = (qs ++ [pyStrip acc], "") := by
          simp [spec_segment_step, hd, hacc]
        have hloop :
            questionsLoop (p :: ps) acc = pyStrip acc :: questionsLoop ps "" := by
          simp [questionsLoop, hd, hacc]
        rw [hstep, hloop, ih]
        simp
    · by_cases hacc : acc = ""
      · have hstep : spec_segment_step (qs, acc) p = (qs, pyStrip p) := by
          simp [spec_segment_step, hd, hacc]
        have hloop : questionsLoop (p :: ps) acc = questionsLoop ps (pyStrip p) := by
          simp [questionsLoop, hd, hacc]
        rw [hstep, hloop, ih]
      · have hstep :
            spec_segment_step (qs, acc) p = (qs, acc ++ " " ++ pyStrip p) := by
          simp [spec_segment_step, hd, hacc]
        have hloop :
            questionsLoop (p :: ps) acc = questionsLoop ps (acc ++ " " ++ pyStrip p) := by
          simp [questionsLoop, hd, hacc]
        rw [hstep, hloop, ih]

theorem questionsLoop_eq_spec_segment (ps : List String) :
    questionsLoop ps "" = spec_segment ps := by
  unfold spec_segment
  rw [finish_foldl ps [] ""]
  simp

theorem mem_questionsLoop_ne_empty :
    ∀ (ps : List String) (acc : String) (q : String),
      q ∈ questionsLoop ps acc → q ≠ "" := by
  intro ps
  induction ps with
  | nil =>
    intro acc q h
    by_cases hacc : pyStrip acc = ""
    · simp [questionsLoop, hacc] at h
    · simp [questionsLoop, hacc] at h
      rw [h]
      exact hacc
  | cons p ps ih =>
    intro acc q h
    by_cases hd : pyStrip p = "" ∨ pyStrip p = "\xa0"
    · by_cases hacc : pyStrip acc = ""
      · rw [show questionsLoop (p :: ps) acc = questionsLoop ps acc by
          simp [questionsLoop, hd, hacc]] at h
        exact ih acc q h
      · rw [show questionsLoop (p :: ps) acc = pyStrip acc :: questionsLoop ps "" by
          simp [questionsLoop, hd, hacc]] at h
        rcases List.mem_cons.mp h with h1 | h2
        · rw [h1]; exact hacc
        · exact ih "" q h2
    · by_cases hacc : acc = ""
      · rw [show questionsLoop (p :: ps) acc = questionsLoop ps (pyStrip p) by
          simp [questionsLoop, hd, hacc]] at h
        exact ih (pyStrip p) q h
      · rw [show questionsLoop (p :: ps) acc
              = questionsLoop ps (acc ++ " " ++ pyStrip p) by
          simp [questionsLoop, hd, hacc]] at h
        exact ih (acc ++ " " ++ pyStrip p) q h

/-! ### Parser and batch helpers -/

theorem parse_file_path (p : String) (input : Option HtmlDoc) :
    (parse_html_file p input).file_path = p := by
  cases input <;> rfl

theorem process_directory_eq (files : List String)
    (fetch : String → Option HtmlDoc) :
    process_directory files fetch =
      (files.insertionSort (· ≤ ·)).map fun p => parse_html_file p (fetch p) := by
  unfold process_directory
  by_cases h : files.isEmpty
  · have : files = [] := List.isEmpty_iff.mp h
    subst this
    simp [List.insertionSort]
  · rw [if_neg h]

theorem process_directory_length (files : List String)
    (fetch : String → Option HtmlDoc) :
    (process_directory files fetch).length = files.length := by
  rw [process_directory_eq, List.length_map]
  exact (List.perm_insertionSort (· ≤ ·) files).length_eq

/-! ### The captured name label never trims to the empty string

The code strips the title (resp. h1) text before searching it; on a
string with no trailing whitespace the pattern's final `\s*(.+)` always
captures a group that starts with a non-whitespace character, so the
trimmed label is non-empty. -/

theorem matchLit_suffix :
    ∀ (pat l r : List Char), matchLit pat l = some r → r <:+ l := by
  intro pat
  induction pat with
  | nil =>
    intro l r h
    cases h
    exact List.suffix_refl _
  | cons p ps ih =>
    intro l r h
    cases l with
    | nil => cases h
    | cons c cs =>
      unfold matchLit at h
      by_cases hc : c = p
      · rw [if_pos hc] at h
        exact (ih cs r h).trans (List.suffix_cons c cs)
      · rw [if_neg hc] at h
        cases h

theorem takeSome_suffix (p : Char → Bool) :
    ∀ (l r : List Char), takeSome p l = some r → r <:+ l := by
  intro l r h
  cases l with
  | nil => cases h
  | cons c cs =>
    simp only [takeSome] at h
    by_cases hc : p c
    · rw [if_pos hc] at h
      cases h
      exact (List.dropWhile_suffix p).trans (List.suffix_cons c cs)
    · rw [if_neg hc] at h
      cases h

theorem dropWhile_fix_of_isPrefix {α : Type} {p : α → Bool} :
    ∀ {y z : List α}, y.dropWhile p = y → z <+: y → z.dropWhile p = z := by
  intro y z hy hz
  cases z with
  | nil => rfl
  | cons d ds =>
    obtain ⟨t, ht⟩ := hz
    have hpd : p d = false := by
      by_contra hpd0
      have hpd : p d = true := by simpa using hpd0
      rw [← ht, List.cons_append, List.dropWhile_cons, if_pos hpd] at hy
      have hle := (List.dropWhile_sublist (l := ds ++ t) p).length_le
      rw [hy] at hle
      simp at hle
    rw [List.dropWhile_cons, if_neg (by simp [hpd])]

theorem stripRight_fix_of_suffix {l r : List Char}
    (hl : stripRight l = l) (hr : r <:+ l) : stripRight r = r := by
  have hl' : l.reverse.dropWhile pyIsSpace = l.reverse := by
    have h2 := congrArg List.reverse hl
    unfold stripRight at h2
    rwa [List.reverse_reverse] at h2
  have hpre : r.reverse <+: l.reverse := List.reverse_prefix.mpr hr
  have h3 : r.reverse.dropWhile pyIsSpace = r.reverse :=
    dropWhile_fix_of_isPrefix hl' hpre
  unfold stripRight
  rw [h3, List.reverse_reverse]

theorem captureRest_strip {r cap : List Char}
    (hr : stripRight r = r) (h : captureRest r = some cap) :
    pyStripList cap ≠ [] := by
  unfold captureRest at h
  cases hdrop : r.dropWhile pyIsSpace with
  | cons d ds =>
    rw [hdrop] at h
    simp only [] at h
    have hd : pyIsSpace d = false := dropWhile_head_false pyIsSpace r d ds hdrop
    have hdn : d ≠ '\n' := ne_newline_of_not_space hd
    rw [List.takeWhile_cons, if_pos (by simp [hdn])] at h
    have hcap : cap = d :: List.takeWhile (fun c => c ≠ '\n') ds :=
      (Option.some.injEq _ _ ▸ h).symm
    rw [hcap]
    unfold pyStripList
    rw [stripLeft_cons_of_not_space _ hd]
    exact stripRight_cons_ne_nil _ hd
  | nil =>
    have hall : stripRight r = [] := by
      rw [stripRight_eq_nil_iff, List.dropWhile_eq_nil_iff]
      intro x hx
      exact List.dropWhile_eq_nil_iff.mp hdrop x (List.mem_reverse.mp hx)
    have hrnil : r = [] := by rw [← hr, hall]
    subst hrnil
    cases h

theorem matchQuestionsAt_strip {l cap : List Char}
    (hl : stripRight l = l) (h : matchQuestionsAt l = some cap) :
    pyStripList cap ≠ [] := by
  unfold matchQuestionsAt at h
  simp only [bind, Option.bind_eq_some] at h
  obtain ⟨r1, h1, r2, h2, r3, h3, r4, h4, r5, h5, r6, h6, h7⟩ := h
  have s1 : r1 <:+ l := matchLit_suffix _ _ _ h1
  have s2 : r2 <:+ r1 := takeSome_suffix _ _ _ h2
  have s3 : r3 <:+ r2 := takeSome_suffix _ _ _ h3
  have s4 : r4 <:+ r3 := matchLit_suffix _ _ _ h4
  have s5 : r5 <:+ r4 := takeSome_suffix _ _ _ h5
  have s6 : r6 <:+ r5 := matchLit_suffix _ _ _ h6
  have hsuf : r6 <:+ l :=
    (((((s6.trans s5).trans s4).trans s3).trans s2).trans s1)
  exact captureRest_strip (stripRight_fix_of_suffix hl hsuf) h7

theorem searchQuestions_strip :
    ∀ (l : List Char), stripRight l = l →
      ∀ cap, searchQuestions l = some cap → pyStripList cap ≠ [] := by
  intro l
  induction l with
  | nil => intro _ cap h; cases h
  | cons c cs ih =>
    intro hl cap h
    unfold searchQuestions at h
    cases hm : matchQuestionsAt (c :: cs) with
    | some cap0 =>
      rw [hm] at h
      simp only [] at h
      cases h
      exact matchQuestionsAt_strip hl hm
    | none =>
      rw [hm] at h
      simp only [] at h
      exact ih (stripRight_fix_of_suffix hl (List.suffix_cons c cs)) cap h

theorem nameFrom_ne_empty :
    ∀ (src : Option String) (lab : String), nameFrom src = some lab → lab ≠ "" := by
  intro src lab h
  unfold nameFrom at h
  cases src with
  | none => cases h
  | some txt =>
    simp only [] at h
    cases hf : findNameLabel (pyStrip txt) with
    | none => rw [hf] at h; cases h
    | some cap =>
      rw [hf] at h
      simp only [] at h
      cases h
      have hs : stripRight ((pyStrip txt).toList) = (pyStrip txt).toList :=
        stripRight_pyStripList txt.toList
      have hne := searchQuestions_strip ((pyStrip txt).toList) hs cap hf
      intro hlab
      exact hne (congrArg String.data hlab)

theorem extract_ne_empty (title h1 : Option String) :
    extract_student_name title h1 ≠ "" := by
  unfold extract_student_name
  cases ht : nameFrom title with
  | none =>
    simp only [if_pos rfl]
    cases hh : nameFrom h1 with
    | none => decide
    | some lab => exact nameFrom_ne_empty h1 lab hh
  | some lab =>
    by_cases hlab : lab = "Unknown Student"
    · rw [hlab]
      simp only [if_pos rfl]
      cases hh : nameFrom h1 with
      | none => decide
      | some lab2 => exact nameFrom_ne_empty h1 lab2 hh
    · rw [if_neg hlab]
      exact nameFrom_ne_empty title lab ht

/-! ### Formatter lemmas -/

theorem extract_eq (t h1 : Option String) :
    extract_student_name t h1 =
      if (nameFrom t).getD "Unknown Student" = "Unknown Student"
      then (nameFrom h1).getD "Unknown Student"
      else (nameFrom t).getD "Unknown Student" := by
  unfold extract_student_name
  cases nameFrom t <;> cases nameFrom h1 <;> simp [Option.getD]

theorem enum_lines :
    ∀ (qs : List String) (i : Nat),
      (enumerate1 i qs).map
        (fun iq => "    - Question " ++ toString iq.1 ++ ": " ++ normalizeWs iq.2)
      = spec_question_lines i qs := by
  intro qs
  induction qs with
  | nil => intro i; rfl
  | cons q qs ih =>
    intro i
    simp only [enumerate1, List.map_cons, spec_question_lines]
    rw [ih (i + 1), normalize_eq_spec]

/-! ### Claim theorems -/

/-- C1: for every sequence of paragraph texts inside the first block
container, the parser's question sequence equals the
delimiter–accumulator algorithm of the spec (`spec_segment`), and on
the paragraphs `["Q1 line one", "", "Q2 part A", "Q2 part B", ""]` it
yields exactly `["Q1 line one", "Q2 part A Q2 part B"]`. -/
theorem claim_C1 :
    (∀ (t h : Option String) (p : String) (ps : List String),
      (parse_html_file p (some ⟨t, h, some ps⟩)).questions = spec_segment ps) ∧
    (parse_html_file "f.html"
        (some ⟨none, none,
          some ["Q1 line one", "", "Q2 part A", "Q2 part B", ""]⟩)).questions
      = ["Q1 line one", "Q2 part A Q2 part B"] := by
  constructor
  · intro t h p ps
    exact questionsLoop_eq_spec_segment ps
  · decide

/-- C2 counterexample: the claim says the h1 is never consulted when the
title pattern matches; but when the title's captured label is literally
`Unknown Student`, the code's sentinel-equality guard falls through to
the h1, which overrides the name with `Alice`. -/
theorem claim_C2_counterexample :
    (parse_html_file "s.html"
        (some ⟨some "Questions 1/2: Unknown Student",
               some "Questions 3/4: Alice", none⟩)).student_name = "Alice" ∧
    "Alice" ≠ "Unknown Student" := by
  exact ⟨by decide, by decide⟩

/-- C2 (amended): name extraction searches the title first and the h1
second with the same pattern; the title's trimmed label is the name and
the h1 is irrelevant whenever that label differs from the sentinel
`Unknown Student`; if the title yields no label — or yields exactly the
sentinel string — the h1 is consulted and its label (or the sentinel)
is the result. -/
theorem claim_C2 :
    ∀ (t h1 : Option String),
      (∀ lab, nameFrom t = some lab → lab ≠ "Unknown Student" →
        extract_student_name t h1 = lab) ∧
      (nameFrom t = none →
        extract_student_name t h1 = (nameFrom h1).getD "Unknown Student") ∧
      (nameFrom t = some "Unknown Student" →
        extract_student_name t h1 = (nameFrom h1).getD "Unknown Student") := by
  intro t h1
  refine ⟨?_, ?_, ?_⟩
  · intro lab hlab hne
    rw [extract_eq, hlab]
    simp [Option.getD, hne]
  · intro hnone
    rw [extract_eq, hnone]
    simp [Option.getD]
  · intro hsent
    rw [extract_eq, hsent]
    simp [Option.getD]

theorem claim_C2_witness :
    nameFrom (some "Questions 5/6: Casey Lee") = some "Casey Lee" ∧
    "Casey Lee" ≠ "Unknown Student" ∧
    extract_student_name (some "Questions 5/6: Casey Lee")
        (some "Questions 7/8: Riley") = "Casey Lee" :=
  ⟨by decide, by decide,
    (claim_C2 (some "Questions 5/6: Casey Lee") (some "Questions 7/8: Riley")).1
      "Casey Lee" (by decide) (by decide)⟩

/-- C3: a document whose read or parse faults yields the sentinel
record with name `Error parsing file` and no questions, and the batch
still processes every file independently: the batch result is exactly
the map of the parser over the sorted file list, no matter which
fetches fault. -/
theorem claim_C3 :
    ∀ (files : List String) (fetch : String → Option HtmlDoc) (p : String),
      fetch p = none →
      parse_html_file p (fetch p) =
        { student_name := "Error parsing file", questions := [],
          file_path := p } ∧
      process_directory files fetch =
        (files.insertionSort (· ≤ ·)).map
          (fun q => parse_html_file q (fetch q)) := by
  intro files fetch p hp
  exact ⟨by rw [hp]; rfl, process_directory_eq files fetch⟩

theorem claim_C3_witness :
    wfetch "a.html" = none ∧
    (parse_html_file "a.html" (wfetch "a.html") =
        { student_name := "Error parsing file", questions := [],
          file_path := "a.html" } ∧
      process_directory ["b.html", "a.html"] wfetch =
        ((["b.html", "a.html"] : List String).insertionSort (· ≤ ·)).map
          (fun q => parse_html_file q (wfetch q))) :=
  ⟨by decide, claim_C3 ["b.html", "a.html"] wfetch "a.html" (by decide)⟩

/-- C4: the batch result has exactly one record per input file — its
length equals the input length even when fetches fault — and the
records appear in sorted order of the file paths. -/
theorem claim_C4 :
    ∀ (files : List String) (fetch : String → Option HtmlDoc),
      (process_directory files fetch).length = files.length ∧
      (process_directory files fetch).map (fun d => d.file_path) =
        files.insertionSort (· ≤ ·) ∧
      List.Sorted (· ≤ ·)
        ((process_directory files fetch).map fun d => d.file_path) := by
  intro files fetch
  have hmap : (process_directory files fetch).map (fun d => d.file_path) =
      files.insertionSort (· ≤ ·) := by
    rw [process_directory_eq, List.map_map]
    have hcomp :
        ((fun d : ParsedDocument => d.file_path)
          ∘ fun p => parse_html_file p (fetch p)) = id := by
      funext q
      simp only [Function.comp]
      exact parse_file_path q (fetch q)
    rw [hcomp, List.map_id]
  refine ⟨process_directory_length files fetch, hmap, ?_⟩
  rw [hmap]
  exact List.sorted_insertionSort (· ≤ ·) files

/-- C5: the formatter emits, per record, the line `- name`, then one
line per question with a 1-based index and the question normalized by
collapsing whitespace runs and trimming, then a blank line, all joined
with newlines (`format_spec`); in particular the question
`"line one\n   line two"` renders as `"line one line two"`. -/
theorem claim_C5 :
    (∀ results : List ParsedDocument,
      format_output results = format_spec results) ∧
    normalizeWs "line one\n   line two" = "line one line two" := by
  constructor
  · intro results
    unfold format_output format_spec
    have hdb : docBlock = spec_doc_block := by
      funext d
      unfold docBlock spec_doc_block
      rw [enum_lines d.questions 1]
    rw [hdb]
  · decide

/-- C6: every question the parser produces is a non-empty string, for
every input document — delimiter runs never create empty questions. -/
theorem claim_C6 :
    ∀ (p : String) (input : Option HtmlDoc) (q : String),
      q ∈ (parse_html_file p input).questions → q ≠ "" := by
  intro p input q h
  cases input with
  | none => simp [parse_html_file] at h
  | some doc =>
    cases hdiv : doc.firstDiv with
    | none =>
      have hq : (parse_html_file p (some doc)).questions = [] := by
        simp [parse_html_file, questionsOf, hdiv]
      rw [hq] at h
      simp at h
    | some ps =>
      have hq : (parse_html_file p (some doc)).questions = questionsLoop ps "" := by
        simp [parse_html_file, questionsOf, hdiv]
      rw [hq] at h
      exact mem_questionsLoop_ne_empty ps "" q h

theorem claim_C6_witness :
    "hi there" ∈ (parse_html_file "f.html"
        (some ⟨none, none, some ["", "hi there", ""]⟩)).questions ∧
    "hi there" ≠ "" :=
  ⟨by decide,
    claim_C6 "f.html" (some ⟨none, none, some ["", "hi there", ""]⟩)
      "hi there" (by decide)⟩

/-- C7: whenever the name pattern matches (title or h1), the stored
label — the captured group after trimming — is non-empty, and the
extracted name is never the empty string; the sentinel remains in every
case in which no non-empty label is produced. -/
theorem claim_C7 :
    (∀ (src : Option String) (lab : String),
      nameFrom src = some lab → lab ≠ "") ∧
    (∀ (title h1 : Option String), extract_student_name title h1 ≠ "") :=
  ⟨nameFrom_ne_empty, extract_ne_empty⟩

theorem claim_C7_witness :
    nameFrom (some "Questions 10/07: Morgan") = some "Morgan" ∧
    "Morgan" ≠ "" :=
  ⟨by decide,
    claim_C7.1 (some "Questions 10/07: Morgan") "Morgan" (by decide)⟩

/-- C8: a document with no block container, or an empty one, has an
empty question sequence, and such a record still appears in the report
as the single line `- name` followed by a blank line. -/
theorem claim_C8 :
    (∀ (t h : Option String) (p : String),
      (parse_html_file p (some ⟨t, h, none⟩)).questions = []) ∧
    (∀ (t h : Option String) (p : String),
      (parse_html_file p (some ⟨t, h, some []⟩)).questions = []) ∧
    (∀ (pre post : List ParsedDocument) (d : ParsedDocument),
      d.questions = [] →
      format_output (pre ++ d :: post) =
        String.intercalate "\n"
          (pre.flatMap docBlock
            ++ ("- " ++ d.student_name) :: "" :: post.flatMap docBlock)) := by
  refine ⟨?_, ?_, ?_⟩
  · intro t h p
    rfl
  · intro t h p
    show questionsLoop [] "" = []
    decide
  · intro pre post d hd
    unfold format_output
    rw [List.flatMap_append, List.flatMap_cons]
    have hblock : docBlock d = ["- " ++ d.student_name, ""] := by
      unfold docBlock
      rw [hd]
      rfl
    rw [hblock]
    simp

theorem claim_C8_witness :
    (⟨"Ann", [], "a.html"⟩ : ParsedDocument).questions = [] ∧
    format_output ([⟨"Zed", ["q1"], "z.html"⟩]
        ++ (⟨"Ann", [], "a.html"⟩ : ParsedDocument) :: []) =
      String.intercalate "\n"
        (([⟨"Zed", ["q1"], "z.html"⟩] : List ParsedDocument).flatMap docBlock
          ++ ("- " ++ (⟨"Ann", [], "a.html"⟩ : ParsedDocument).student_name)
            :: "" :: ([] : List ParsedDocument).flatMap docBlock) :=
  ⟨rfl, claim_C8.2.2 [⟨"Zed", ["q1"], "z.html"⟩] [] ⟨"Ann", [], "a.html"⟩ rfl⟩

/-- C9: the formatter is a pure function of the batch result: equal
inputs always format to equal output text. -/
theorem claim_C9 :
    ∀ (b1 b2 : List ParsedDocument),
      b1 = b2 → format_output b1 = format_output b2 :=
  fun _ _ h => congrArg format_output h

theorem claim_C9_witness :
    ([⟨"A", ["x  y"], "f"⟩] : List ParsedDocument) = [⟨"A", ["x  y"], "f"⟩] ∧
    format_output [⟨"A", ["x  y"], "f"⟩] = format_output [⟨"A", ["x  y"], "f"⟩] :=
  ⟨rfl, claim_C9 [⟨"A", ["x  y"], "f"⟩] [⟨"A", ["x  y"], "f"⟩] rfl⟩

/-- C10: the parser's result carries the input path unchanged in its
`file_path` field, on the success branch and on the fault branch
alike. -/
theorem claim_C10 :
    ∀ (p : String) (input : Option HtmlDoc),
      (parse_html_file p input).file_path = p :=
  parse_file_path

end ParseQuestions
